import Mathlib

/-!
# Verification of the `whist` word-frequency counter

A shallow embedding, in Lean 4, of the core pipeline of the `whist`
repository (`src/main.rs`): the `StrBreaker` term scanner, the string
interner, the `BTreeMap`-based counting table, and the two report
orderings, together with theorems checking the repository's
natural-language specification against this embedding.

Texts are modelled as `List Char`.  Rust's Unicode-aware
`char::is_alphanumeric` and `char::is_whitespace` are treated as
abstract character predicates: the structural theorems are proved for
every choice of predicate, and concrete examples instantiate them with
the ASCII restriction, on which the Lean predicates agree with Rust's.
-/

namespace Whist

/-- The apostrophe character, written via its code point. -/
def apostrophe : Char := Char.ofNat 39

/-- Model of `enum Term` from `src/main.rs`: a classified span of the
scanned text, either a run of word-like characters (`Letters`) or a run
of any other characters (`Symbols`). -/
inductive Term where
  | Letters : List Char → Term
  | Symbols : List Char → Term
deriving DecidableEq, Repr

/-- The span of characters a `Term` covers. -/
def Term.span : Term → List Char
  | .Letters s => s
  | .Symbols s => s

/-- `true` exactly on word-classified terms. -/
def Term.isLetters : Term → Bool
  | .Letters _ => true
  | .Symbols _ => false

/-- Model of `StrBreaker::is_kinda_letter` from `src/main.rs`:
`c.is_alphanumeric() || c == '_' || c == '\''`, with the Rust
alphanumeric test abstracted into the parameter `isAl`. -/
def is_kinda_letter (isAl : Char → Bool) (c : Char) : Bool :=
  isAl c || c = '_' || c = apostrophe

/-- Rust's `char::is_alphanumeric` restricted to the ASCII range, where
it coincides with letter-or-digit.  All concrete inputs appearing in the
specification are ASCII. -/
def asciiAlphanumeric (c : Char) : Bool :=
  c.isAlpha || c.isDigit

/-- Model of `<StrBreaker as Iterator>::next` run to exhaustion
(`src/main.rs` lines 85-114): if the remaining input is empty, stop;
otherwise classify the first character, emit the maximal prefix with the
same classification, and continue on the rest.  The Rust code finds the
first index whose classification differs and splits there, which is
exactly `takeWhile` / `dropWhile` on the classification of the head. -/
def strBreak (p : Char → Bool) : List Char → List Term
  | [] => []
  | c :: cs =>
    if is_kinda_letter p c then
      Term.Letters ((c :: cs).takeWhile (is_kinda_letter p)) ::
        strBreak p ((c :: cs).dropWhile (is_kinda_letter p))
    else
      Term.Symbols ((c :: cs).takeWhile (fun x => ! is_kinda_letter p x)) ::
        strBreak p ((c :: cs).dropWhile (fun x => ! is_kinda_letter p x))
termination_by l => l.length
decreasing_by
  · simp only [List.dropWhile_cons]
    split
    · exact Nat.lt_succ_of_le (List.dropWhile_sublist _).length_le
    · simp_all
  · simp only [List.dropWhile_cons]
    split
    · exact Nat.lt_succ_of_le (List.dropWhile_sublist _).length_le
    · simp_all

/-- Rust's `char::is_whitespace` restricted to the ASCII whitespace
characters (space, tab, carriage return, newline), on which it agrees
with the full Unicode predicate. -/
def asciiWhitespace (c : Char) : Bool := c.isWhitespace

/-- Model of `str::trim`: drop the longest whitespace prefix and the
longest whitespace suffix, with the whitespace test abstracted into the
parameter `isWs`. -/
def rustTrim (isWs : Char → Bool) (s : List Char) : List Char :=
  ((s.dropWhile isWs).reverse.dropWhile isWs).reverse

/-- Model of `StrBreaker::new` followed by iterating the breaker to
exhaustion: the constructor stores `spare.trim()`, so scanning starts
from the trimmed input. -/
def strBreakerTerms (isAl isWs : Char → Bool) (s : List Char) : List Term :=
  strBreak isAl (rustTrim isWs s)

/-- The concrete scanner of `src/main.rs`, instantiated with the ASCII
restrictions of Rust's character predicates. -/
def scanStr (s : List Char) : List Term :=
  strBreakerTerms asciiAlphanumeric asciiWhitespace s

/-- Concatenation of the spans of a term sequence. -/
def termsConcat (ts : List Term) : List Char :=
  (ts.map Term.span).flatten

/-- `true` when no two adjacent terms of the sequence share a
classification. -/
def alternates : List Term → Bool
  | a :: b :: rest => (a.isLetters != b.isLetters) && alternates (b :: rest)
  | _ => true

/-- Every character of the term's span matches the term's
classification. -/
def Term.wellClassified (isAl : Char → Bool) : Term → Bool
  | .Letters s => s.all (is_kinda_letter isAl)
  | .Symbols s => s.all (fun c => ! is_kinda_letter isAl c)

@[simp] theorem termsConcat_nil : termsConcat [] = [] := rfl

@[simp] theorem termsConcat_cons (t : Term) (ts : List Term) :
    termsConcat (t :: ts) = t.span ++ termsConcat ts := rfl

@[simp] theorem Term.span_Letters (s : List Char) : (Term.Letters s).span = s := rfl

@[simp] theorem Term.span_Symbols (s : List Char) : (Term.Symbols s).span = s := rfl

@[simp] theorem Term.isLetters_Letters (s : List Char) :
    (Term.Letters s).isLetters = true := rfl

@[simp] theorem Term.isLetters_Symbols (s : List Char) :
    (Term.Symbols s).isLetters = false := rfl

@[simp] theorem Term.wellClassified_Letters (p : Char → Bool) (s : List Char) :
    (Term.Letters s).wellClassified p = s.all (is_kinda_letter p) := rfl

@[simp] theorem Term.wellClassified_Symbols (p : Char → Bool) (s : List Char) :
    (Term.Symbols s).wellClassified p = s.all (fun c => ! is_kinda_letter p c) := rfl

theorem dropWhile_head_not {α} (p : α → Bool) (l : List α) {c : α}
    {cs : List α} (h : l.dropWhile p = c :: cs) : p c = false := by
  induction l with
  | nil => simp at h
  | cons a as ih =>
    rw [List.dropWhile_cons] at h
    by_cases ha : p a
    · simp [ha] at h; exact ih h
    · simp [ha] at h; simp [← h.1]; simpa using ha

/-- Scanner coverage: concatenating the spans of the produced terms
gives back the scanned list. -/
theorem strBreak_concat (p : Char → Bool) (l : List Char) :
    termsConcat (strBreak p l) = l := by
  induction l using strBreak.induct (p := p) with
  | case1 => simp [strBreak]
  | case2 c cs h ih =>
    rw [strBreak]
    simp only [h, if_true, termsConcat_cons, Term.span_Letters]
    rw [ih, List.takeWhile_append_dropWhile]
  | case3 c cs h ih =>
    rw [strBreak]
    simp only [h, Bool.false_eq_true, if_false, termsConcat_cons, Term.span_Symbols]
    rw [ih, List.takeWhile_append_dropWhile]

/-- The scanner never emits a term with an empty span. -/
theorem strBreak_all_nonempty (p : Char → Bool) (l : List Char) :
    (strBreak p l).all (fun t => ! t.span.isEmpty) = true := by
  induction l using strBreak.induct (p := p) with
  | case1 => simp [strBreak]
  | case2 c cs h ih =>
    rw [strBreak]
    simp only [h, if_true, List.all_cons, Bool.and_eq_true]
    refine And.intro ?_ ih
    simp [List.takeWhile_cons, h]
  | case3 c cs h ih =>
    rw [strBreak]
    simp only [h, Bool.false_eq_true, if_false, List.all_cons, Bool.and_eq_true]
    refine And.intro ?_ ih
    simp [List.takeWhile_cons, h]

/-- Every character inside a `Letters` term is word-like, every
character inside a `Symbols` term is not. -/
theorem strBreak_all_wellClassified (p : Char → Bool) (l : List Char) :
    (strBreak p l).all (Term.wellClassified p) = true := by
  induction l using strBreak.induct (p := p) with
  | case1 => simp [strBreak]
  | case2 c cs h ih =>
    rw [strBreak]
    simp only [h, if_true, List.all_cons, Bool.and_eq_true]
    exact And.intro (by simp only [Term.wellClassified_Letters]; exact List.all_takeWhile) ih
  | case3 c cs h ih =>
    rw [strBreak]
    simp only [h, Bool.false_eq_true, if_false, List.all_cons, Bool.and_eq_true]
    exact And.intro (by simp only [Term.wellClassified_Symbols]; exact List.all_takeWhile) ih

/-- The first term emitted for a nonempty input is word-classified
exactly when the first character is word-like. -/
theorem strBreak_cons_classification (p : Char → Bool) (l : List Char)
    (t : Term) (ts : List Term) (h : strBreak p l = t :: ts) :
    ∃ c cs, l = c :: cs ∧ t.isLetters = is_kinda_letter p c := by
  cases l with
  | nil => rw [strBreak] at h; simp at h
  | cons c cs =>
    refine ⟨c, cs, rfl, ?_⟩
    rw [strBreak] at h
    by_cases hc : is_kinda_letter p c
    · simp only [hc, if_true, List.cons.injEq] at h
      rw [← h.1, Term.isLetters_Letters, hc]
    · simp only [hc, Bool.false_eq_true, if_false, List.cons.injEq] at h
      rw [← h.1, Term.isLetters_Symbols]
      simp at hc
      rw [hc]

/-- No two adjacent terms emitted by the scanner share a
classification. -/
theorem strBreak_alternates (p : Char → Bool) (l : List Char) :
    alternates (strBreak p l) = true := by
  induction l using strBreak.induct (p := p) with
  | case1 => simp [strBreak, alternates]
  | case2 c cs h ih =>
    rw [strBreak]
    simp only [h, if_true]
    cases hrem : strBreak p ((c :: cs).dropWhile (is_kinda_letter p)) with
    | nil => simp [alternates]
    | cons b ts =>
      obtain ⟨d, ds, hd, hcls⟩ := strBreak_cons_classification p _ b ts hrem
      have hdf : is_kinda_letter p d = false := dropWhile_head_not _ _ hd
      have hb : b.isLetters = false := hcls.trans hdf
      rw [hrem] at ih
      simp [alternates, hb, ih]
  | case3 c cs h ih =>
    rw [strBreak]
    simp only [h, Bool.false_eq_true, if_false]
    cases hrem : strBreak p ((c :: cs).dropWhile (fun x => ! is_kinda_letter p x)) with
    | nil => simp [alternates]
    | cons b ts =>
      obtain ⟨d, ds, hd, hcls⟩ := strBreak_cons_classification p _ b ts hrem
      have hdf := dropWhile_head_not (fun x => ! is_kinda_letter p x) _ hd
      have hdt : is_kinda_letter p d = true := by simpa using hdf
      have hb : b.isLetters = true := hcls.trans hdt
      rw [hrem] at ih
      simp [alternates, hb, ih]

/-- The scanner emits at most one term per input character: the output
is finite with length bounded by the input's. -/
theorem strBreak_length_le (p : Char → Bool) (l : List Char) :
    (strBreak p l).length ≤ l.length := by
  induction l using strBreak.induct (p := p) with
  | case1 => simp [strBreak]
  | case2 c cs h ih =>
    rw [strBreak]
    simp only [h, if_true, List.length_cons]
    have hle : ((c :: cs).dropWhile (is_kinda_letter p)).length ≤ cs.length := by
      simp only [List.dropWhile_cons, h, if_true]
      exact (List.dropWhile_sublist _).length_le
    omega
  | case3 c cs h ih =>
    rw [strBreak]
    simp only [h, Bool.false_eq_true, if_false, List.length_cons]
    have hle : ((c :: cs).dropWhile (fun x => ! is_kinda_letter p x)).length ≤ cs.length := by
      simp only [List.dropWhile_cons, h, Bool.not_false, if_true]
      exact (List.dropWhile_sublist _).length_le
    omega

/-! ## Byte-lexicographic string order

Rust orders `&str` values byte-lexicographically; on `char` sequences
this is code-point-lexicographic order, modelled here on `List Char`. -/

/-- Comparison of two characters by code point, as Rust's `char::cmp`. -/
def charCmp (a b : Char) : Ordering := compare a.toNat b.toNat

/-- Lexicographic comparison of two character lists, as Rust's
`str::cmp`. -/
def lexCmp : List Char → List Char → Ordering
  | [], [] => .eq
  | [], _ :: _ => .lt
  | _ :: _, [] => .gt
  | a :: as, b :: bs =>
    match charCmp a b with
    | .eq => lexCmp as bs
    | o => o

theorem charCmp_eq_iff (a b : Char) : charCmp a b = .eq ↔ a = b := by
  unfold charCmp
  rw [Nat.compare_eq_eq]
  exact ⟨fun h => Char.ext (UInt32.ext h), fun h => by rw [h]⟩

theorem charCmp_lt_iff (a b : Char) : charCmp a b = .lt ↔ a.toNat < b.toNat :=
  Nat.compare_eq_lt

theorem charCmp_gt_iff (a b : Char) : charCmp a b = .gt ↔ b.toNat < a.toNat :=
  Nat.compare_eq_gt

theorem lexCmp_eq_iff (a b : List Char) : lexCmp a b = .eq ↔ a = b := by
  induction a generalizing b with
  | nil => cases b <;> simp [lexCmp]
  | cons x xs ih =>
    cases b with
    | nil => simp [lexCmp]
    | cons y ys =>
      rw [lexCmp]
      rcases hc : charCmp x y with _ | _ | _
      · simp only []
        constructor
        · intro h; exact absurd h (by simp)
        · intro h
          have : x = y := by simp at h; exact h.1
          rw [← charCmp_eq_iff x y] at this
          rw [this] at hc; cases hc
      · simp only [ih]
        have hxy : x = y := (charCmp_eq_iff x y).mp hc
        simp [hxy]
      · simp only []
        constructor
        · intro h; exact absurd h (by simp)
        · intro h
          have : x = y := by simp at h; exact h.1
          rw [← charCmp_eq_iff x y] at this
          rw [this] at hc; cases hc

theorem lexCmp_self (a : List Char) : lexCmp a a = .eq :=
  (lexCmp_eq_iff a a).mpr rfl

theorem charCmp_swap (a b : Char) : charCmp b a = (charCmp a b).swap := by
  unfold charCmp
  rcases Nat.lt_trichotomy a.toNat b.toNat with h | h | h
  · rw [(Nat.compare_eq_lt).mpr h, (Nat.compare_eq_gt).mpr h]; rfl
  · rw [(Nat.compare_eq_eq).mpr h, (Nat.compare_eq_eq).mpr h.symm]; rfl
  · rw [(Nat.compare_eq_gt).mpr h, (Nat.compare_eq_lt).mpr h]; rfl

theorem lexCmp_swap (a b : List Char) : lexCmp b a = (lexCmp a b).swap := by
  induction a generalizing b with
  | nil => cases b <;> simp [lexCmp, Ordering.swap]
  | cons x xs ih =>
    cases b with
    | nil => simp [lexCmp, Ordering.swap]
    | cons y ys =>
      rw [lexCmp, lexCmp, charCmp_swap]
      rcases charCmp x y with _ | _ | _
      · rfl
      · exact ih ys
      · rfl

theorem lexCmp_lt_trans {a b c : List Char} (hab : lexCmp a b = .lt)
    (hbc : lexCmp b c = .lt) : lexCmp a c = .lt := by
  induction a generalizing b c with
  | nil =>
    cases c with
    | nil =>
      cases b with
      | nil => simp [lexCmp] at hab
      | cons y ys => simp [lexCmp] at hbc
    | cons z zs => simp [lexCmp]
  | cons x xs ih =>
    cases b with
    | nil => simp [lexCmp] at hab
    | cons y ys =>
      cases c with
      | nil => simp [lexCmp] at hbc
      | cons z zs =>
        rw [lexCmp] at hab hbc ⊢
        rcases hxy : charCmp x y with _ | _ | _ <;> rw [hxy] at hab
        · rcases hyz : charCmp y z with _ | _ | _ <;> rw [hyz] at hbc
          · have : charCmp x z = .lt := by
              rw [charCmp_lt_iff] at hxy hyz ⊢
              omega
            rw [this]
          · have hyzeq : y = z := (charCmp_eq_iff y z).mp hyz
            rw [← hyzeq, hxy]
          · cases hbc
        · have hxyeq : x = y := (charCmp_eq_iff x y).mp hxy
          rcases hyz : charCmp y z with _ | _ | _ <;> rw [hyz] at hbc
          · rw [hxyeq, hyz]
          · rw [hxyeq, hyz]
            exact ih hab hbc
          · cases hbc
        · cases hab

/-! ## The counting table

`word_counts` in `src/main.rs` is a `BTreeMap<&str, usize>`: a mapping
from key to count whose iteration order is ascending by key.  It is
modelled as an association list kept strictly sorted by `lexCmp`.
`btreeInsert` models `*word_counts.entry(w).or_insert(0) += 1`
(`src/main.rs` line 35): find the key's slot in order, bump its count,
or insert a fresh entry with count `0 + 1` where the key belongs. -/

/-- One recording step on the counting table. -/
def btreeInsert (w : List Char) : List (List Char × Nat) → List (List Char × Nat)
  | [] => [(w, 1)]
  | (k, c) :: rest =>
    match lexCmp w k with
    | .eq => (k, c + 1) :: rest
    | .lt => (w, 1) :: (k, c) :: rest
    | .gt => (k, c) :: btreeInsert w rest

/-- The count stored for a key (`0` when the key is absent). -/
def countOf : List (List Char × Nat) → List Char → Nat
  | [], _ => 0
  | (k, c) :: rest, w => if w = k then c else countOf rest w

/-- The `BTreeMap` representation invariant: entries strictly sorted by
key. -/
def tableSorted (m : List (List Char × Nat)) : Prop :=
  m.Pairwise (fun a b => lexCmp a.1 b.1 = Ordering.lt)

instance (m : List (List Char × Nat)) : Decidable (tableSorted m) := by
  unfold tableSorted; infer_instance

/-- The counting table accumulated from a stream of recorded words. -/
def buildTable (ws : List (List Char)) : List (List Char × Nat) :=
  ws.foldl (fun m w => btreeInsert w m) []

theorem mem_btreeInsert (w : List Char) (m : List (List Char × Nat))
    {x : List Char × Nat} (hx : x ∈ btreeInsert w m) :
    x.1 = w ∨ x.1 ∈ m.map Prod.fst := by
  induction m with
  | nil => simp [btreeInsert] at hx; simp [hx]
  | cons e rest ih =>
    obtain ⟨k, c⟩ := e
    rw [btreeInsert] at hx
    rcases hkw : lexCmp w k with _ | _ | _ <;> rw [hkw] at hx
    · rcases List.mem_cons.mp hx with h | h
      · left; rw [h]
      · rcases List.mem_cons.mp h with h2 | h2
        · right; rw [h2]; simp
        · right; simp; right; exact ⟨x.2, by simpa using h2⟩
    · rcases List.mem_cons.mp hx with h | h
      · right; rw [h]; simp
      · right; simp; right; exact ⟨x.2, by simpa using h⟩
    · rcases List.mem_cons.mp hx with h | h
      · right; rw [h]; simp
      · rcases ih h with h2 | h2
        · left; exact h2
        · right; simp at h2 ⊢; right; exact h2

theorem btreeInsert_sorted {m : List (List Char × Nat)} (w : List Char)
    (hm : tableSorted m) : tableSorted (btreeInsert w m) := by
  induction m with
  | nil => simp [btreeInsert, tableSorted]
  | cons e rest ih =>
    obtain ⟨k, c⟩ := e
    simp only [tableSorted, List.pairwise_cons] at hm
    obtain ⟨hk, hrest⟩ := hm
    rw [btreeInsert]
    rcases hkw : lexCmp w k with _ | _ | _
    · simp only [tableSorted, List.pairwise_cons]
      refine ⟨?_, ?_⟩
      · intro b hb
        rcases List.mem_cons.mp hb with h | h
        · rw [h]; exact hkw
        · exact lexCmp_lt_trans hkw (hk b h)
      · exact ⟨hk, hrest⟩
    · simp only [tableSorted, List.pairwise_cons]
      exact ⟨fun b hb => hk b hb, hrest⟩
    · simp only [tableSorted, List.pairwise_cons]
      refine ⟨?_, ih hrest⟩
      intro b hb
      rcases mem_btreeInsert w rest hb with h | h
      · rw [h]
        have hsw : lexCmp k w = (lexCmp w k).swap := lexCmp_swap w k
        rw [hkw] at hsw
        exact hsw
      · obtain ⟨b1, hb1⟩ := List.mem_map.mp h
        have := hk b1 hb1.1
        rw [hb1.2] at this
        exact this

theorem countOf_eq_zero {m : List (List Char × Nat)} {w : List Char}
    (h : ∀ e ∈ m, e.1 ≠ w) : countOf m w = 0 := by
  induction m with
  | nil => rfl
  | cons e rest ih =>
    obtain ⟨k, c⟩ := e
    rw [countOf]
    have hne : w ≠ k := fun hwk => (h (k, c) (by simp)) (by rw [hwk])
    rw [if_neg hne]
    exact ih fun e he => h e (by simp [he])

theorem countOf_btreeInsert_self {m : List (List Char × Nat)} (w : List Char)
    (hm : tableSorted m) : countOf (btreeInsert w m) w = countOf m w + 1 := by
  induction m with
  | nil => simp [btreeInsert, countOf]
  | cons e rest ih =>
    obtain ⟨k, c⟩ := e
    simp only [tableSorted, List.pairwise_cons] at hm
    obtain ⟨hk, hrest⟩ := hm
    rw [btreeInsert]
    rcases hkw : lexCmp w k with _ | _ | _
    · rw [countOf, if_pos rfl, countOf]
      have hne : w ≠ k := by
        intro hwk
        rw [hwk, lexCmp_self] at hkw; cases hkw
      rw [if_neg hne]
      have : countOf ((k, c) :: rest) w = 0 := by
        apply countOf_eq_zero
        intro e he
        rcases List.mem_cons.mp he with h | h
        · rw [h]; exact fun hkw2 => hne hkw2.symm
        · intro hew
          have := hk e h
          rw [hew] at this
          have h2 := lexCmp_lt_trans hkw this
          rw [lexCmp_self] at h2; cases h2
      rw [countOf, if_neg hne] at this
      omega
    · have hwk : w = k := (lexCmp_eq_iff w k).mp hkw
      rw [countOf, if_pos hwk, countOf, if_pos hwk]
    · have hne : w ≠ k := by
        intro hwk
        rw [hwk, lexCmp_self] at hkw; cases hkw
      rw [countOf, if_neg hne, countOf, if_neg hne]
      exact ih hrest

theorem countOf_btreeInsert_ne (m : List (List Char × Nat)) (w k : List Char)
    (hne : k ≠ w) : countOf (btreeInsert w m) k = countOf m k := by
  induction m with
  | nil => simp [btreeInsert, countOf, if_neg hne]
  | cons e rest ih =>
    obtain ⟨k2, c⟩ := e
    rw [btreeInsert]
    rcases hkw : lexCmp w k2 with _ | _ | _
    · rw [countOf, if_neg hne, countOf]
    · have hwk : w = k2 := (lexCmp_eq_iff w k2).mp hkw
      rw [countOf, countOf]
      have : (k = k2) = False := by
        simp only [eq_iff_iff, iff_false]
        rw [← hwk]; exact hne
      by_cases hkk : k = k2
      · rw [this] at hkk; cases hkk
      · rw [if_neg hkk, if_neg hkk]
    · rw [countOf, countOf]
      by_cases hkk : k = k2
      · rw [if_pos hkk, if_pos hkk]
      · rw [if_neg hkk, if_neg hkk]
        exact ih

theorem btreeInsert_counts_pos {m : List (List Char × Nat)} (w : List Char)
    (hm : ∀ e ∈ m, 1 ≤ e.2) : ∀ e ∈ btreeInsert w m, 1 ≤ e.2 := by
  induction m with
  | nil => intro e he; simp [btreeInsert] at he; simp [he]
  | cons e2 rest ih =>
    obtain ⟨k, c⟩ := e2
    intro e he
    rw [btreeInsert] at he
    rcases hkw : lexCmp w k with _ | _ | _ <;> rw [hkw] at he
    · rcases List.mem_cons.mp he with h | h
      · rw [h]
      · exact hm e h
    · rcases List.mem_cons.mp he with h | h
      · rw [h]; simp
      · exact hm e (by simp [h])
    · rcases List.mem_cons.mp he with h | h
      · rw [h]; exact hm (k, c) (by simp)
      · exact ih (fun e2 he2 => hm e2 (by simp [he2])) e h

theorem buildTable_invariant (ws : List (List Char)) :
    tableSorted (buildTable ws) ∧ ∀ e ∈ buildTable ws, 1 ≤ e.2 := by
  have main : ∀ (ws : List (List Char)) (m : List (List Char × Nat)),
      tableSorted m → (∀ e ∈ m, 1 ≤ e.2) →
      tableSorted (ws.foldl (fun m w => btreeInsert w m) m) ∧
        ∀ e ∈ ws.foldl (fun m w => btreeInsert w m) m, 1 ≤ e.2 := by
    intro ws
    induction ws with
    | nil => intro m h1 h2; exact ⟨h1, h2⟩
    | cons w rest ih =>
      intro m h1 h2
      exact ih (btreeInsert w m) (btreeInsert_sorted w h1) (btreeInsert_counts_pos w h2)
  exact main ws [] (by simp [tableSorted]) (by simp)

/-! ## The interner

`intern: HashSet<&'static str>` in `src/main.rs` (lines 13, 29-34): on
a hit, `intern.get(letters)` returns the canonical leaked allocation;
on a miss, the spelling is copied into a fresh leaked allocation which
is inserted into the set and returned.  The arena of allocations is
modelled as the list of interned spellings in allocation order, and the
identity of a canonical string is its index in that arena. -/

/-- The arena index of the canonical allocation holding spelling `s`,
when one exists. -/
def internFind : List (List Char) → List Char → Option Nat
  | [], _ => none
  | e :: rest, s => if e = s then some 0 else (internFind rest s).map (· + 1)

/-- One interning step: the returned `Nat` is the identity of the
canonical string for `s`, the returned list the updated arena. -/
def intern (st : List (List Char)) (s : List Char) : Nat × List (List Char) :=
  match internFind st s with
  | some i => (i, st)
  | none => (st.length, st ++ [s])

theorem internFind_some_get {st : List (List Char)} {s : List Char} {i : Nat}
    (h : internFind st s = some i) : st[i]? = some s := by
  induction st generalizing i with
  | nil => simp [internFind] at h
  | cons e rest ih =>
    rw [internFind] at h
    by_cases he : e = s
    · rw [if_pos he] at h
      cases h
      simp [he]
    · rw [if_neg he] at h
      rcases hj : internFind rest s with _ | j <;> rw [hj] at h
      · cases h
      · have h2 : j + 1 = i := by simpa using h
        rw [← h2]
        simpa using ih hj

theorem internFind_append_of_none {st : List (List Char)} {s : List Char}
    (h : internFind st s = none) : internFind (st ++ [s]) s = some st.length := by
  induction st with
  | nil => simp [internFind]
  | cons e rest ih =>
    rw [internFind] at h
    by_cases he : e = s
    · rw [if_pos he] at h; cases h
    · rw [if_neg he] at h
      rw [List.cons_append, internFind, if_neg he]
      rcases hj : internFind rest s with _ | j <;> rw [hj] at h
      · rw [ih hj]
        simp
      · cases h

theorem intern_get (st : List (List Char)) (s : List Char) :
    ((intern st s).2)[(intern st s).1]? = some s := by
  rw [intern]
  rcases h : internFind st s with _ | i
  · simp
  · simp only []
    exact internFind_some_get h

theorem intern_preserves {st : List (List Char)} (s : List Char) {i : Nat}
    {v : List Char} (h : st[i]? = some v) : ((intern st s).2)[i]? = some v := by
  rw [intern]
  rcases hf : internFind st s with _ | j
  · have hlt : i < st.length := by
      by_contra hge
      rw [List.getElem?_eq_none (Nat.le_of_not_lt hge)] at h
      cases h
    simpa [List.getElem?_append_left hlt] using h
  · simpa using h

theorem intern_twice (st : List (List Char)) (s : List Char) :
    intern ((intern st s).2) s = intern st s := by
  rcases h : internFind st s with _ | i
  · have hst : intern st s = (st.length, st ++ [s]) := by rw [intern, h]
    have h2 := internFind_append_of_none h
    rw [hst]
    show intern (st ++ [s]) s = (st.length, st ++ [s])
    rw [intern, h2]
  · have hst : intern st s = (i, st) := by rw [intern, h]
    rw [hst]
    show intern st s = (i, st)
    exact hst

/-! ## The per-file loop

Lines 26-39 of `src/main.rs`: for every term of the scanner, a
`Letters` term is interned and its count bumped in `word_counts`; any
other term is skipped. -/

/-- The state threaded through the loop: the interner arena and the
counting table. -/
def processTerms (st : List (List Char)) (m : List (List Char × Nat)) :
    List Term → List (List Char) × List (List Char × Nat)
  | [] => (st, m)
  | Term.Letters l :: rest => processTerms (intern st l).2 (btreeInsert l m) rest
  | Term.Symbols _ :: rest => processTerms st m rest

/-- Processing one file's buffer `s`: scan, intern, aggregate. -/
def processBuffer (st : List (List Char)) (m : List (List Char × Nat))
    (s : List Char) : List (List Char) × List (List Char × Nat) :=
  processTerms st m (scanStr s)

theorem processTerms_filter (st : List (List Char)) (m : List (List Char × Nat))
    (ts : List Term) :
    processTerms st m ts = processTerms st m (ts.filter Term.isLetters) := by
  induction ts generalizing st m with
  | nil => rfl
  | cons t rest ih =>
    cases t with
    | Letters l =>
      rw [processTerms, List.filter_cons_of_pos (by simp), processTerms]
      exact ih _ _
    | Symbols l =>
      rw [processTerms, List.filter_cons_of_neg (by simp)]
      exact ih _ _

theorem processTerms_all_symbols (st : List (List Char))
    (m : List (List Char × Nat)) :
    ∀ ts : List Term, ts.all (fun t => ! t.isLetters) = true →
      processTerms st m ts = (st, m) := by
  intro ts
  induction ts with
  | nil => exact fun _ => rfl
  | cons t rest ih =>
    intro h
    rw [List.all_cons, Bool.and_eq_true] at h
    cases t with
    | Letters l => exact absurd h.1 (by simp)
    | Symbols l =>
      rw [processTerms]
      exact ih h.2

/-! ## Report ordering

Lines 47-62 of `src/main.rs`.  With `--print-by-frequency` the table's
entries are collected and sorted by the comparator that reverses the
count comparison and breaks ties by key; otherwise the `BTreeMap` is
iterated in its own ascending key order. -/

/-- The comparator passed to `sort_unstable_by` (lines 50-54): reverse
the `usize` comparison of the counts, break ties with the string
comparison of the words. -/
def rustFreqCmp (a b : List Char × Nat) : Ordering :=
  match compare a.2 b.2 with
  | .lt => .gt
  | .gt => .lt
  | .eq => lexCmp a.1 b.1

/-- `a` may be placed before `b`: the comparator does not answer
`Greater`. -/
def freqRel (a b : List Char × Nat) : Prop := rustFreqCmp a b ≠ Ordering.gt

instance : DecidableRel freqRel := fun a b => by unfold freqRel; infer_instance

theorem freqRel_iff (a b : List Char × Nat) :
    freqRel a b ↔ b.2 < a.2 ∨ (a.2 = b.2 ∧ lexCmp a.1 b.1 ≠ Ordering.gt) := by
  unfold freqRel rustFreqCmp
  rcases h : compare a.2 b.2 with _ | _ | _
  · have hlt : a.2 < b.2 := Nat.compare_eq_lt.mp h
    simp only []
    constructor
    · intro hc; exact absurd rfl hc
    · intro hc
      rcases hc with hc | hc
      · omega
      · omega
  · have heq : a.2 = b.2 := Nat.compare_eq_eq.mp h
    simp only []
    constructor
    · intro hc; exact Or.inr ⟨heq, hc⟩
    · intro hc
      rcases hc with hc | hc
      · omega
      · exact hc.2
  · have hgt : b.2 < a.2 := Nat.compare_eq_gt.mp h
    simp only []
    constructor
    · intro _; exact Or.inl hgt
    · intro _
      intro hc; cases hc

theorem freqRel_total (a b : List Char × Nat) : freqRel a b ∨ freqRel b a := by
  rw [freqRel_iff, freqRel_iff]
  rcases Nat.lt_trichotomy a.2 b.2 with h | h | h
  · right; left; exact h
  · rcases hc : lexCmp a.1 b.1 with _ | _ | _
    · left; right; exact ⟨h, by intro hx; cases hx⟩
    · left; right; exact ⟨h, by intro hx; cases hx⟩
    · right; right
      refine ⟨h.symm, ?_⟩
      rw [lexCmp_swap, hc]
      decide
  · left; left; exact h

theorem freqRel_trans {a b c : List Char × Nat} (hab : freqRel a b)
    (hbc : freqRel b c) : freqRel a c := by
  rw [freqRel_iff] at hab hbc ⊢
  rcases hab with hab | ⟨hab1, hab2⟩
  · rcases hbc with hbc | ⟨hbc1, hbc2⟩
    · left; omega
    · left; omega
  · rcases hbc with hbc | ⟨hbc1, hbc2⟩
    · left; omega
    · right
      refine ⟨by omega, ?_⟩
      rcases h1 : lexCmp a.1 b.1 with _ | _ | _ <;> rw [h1] at hab2
      · rcases h2 : lexCmp b.1 c.1 with _ | _ | _ <;> rw [h2] at hbc2
        · rw [lexCmp_lt_trans h1 h2]; intro hx; cases hx
        · rw [← (lexCmp_eq_iff b.1 c.1).mp h2, h1]; intro hx; cases hx
        · exact absurd rfl hbc2
      · rw [(lexCmp_eq_iff a.1 b.1).mp h1]
        exact hbc2
      · exact absurd rfl hab2

instance : IsTotal (List Char × Nat) freqRel := ⟨freqRel_total⟩

instance : IsTrans (List Char × Nat) freqRel := ⟨fun _ _ _ => freqRel_trans⟩

/-- The ordered rows the program prints: sorted by the frequency
comparator when `--print-by-frequency` was given, otherwise the
`BTreeMap`'s own ascending-key order.  `sort_unstable_by` is modelled
by insertion sort: on the strict total order induced by the comparator
over distinct keys, every comparison sort produces the same list. -/
def reportRows (printByFrequency : Bool) (m : List (List Char × Nat)) :
    List (List Char × Nat) :=
  if printByFrequency then List.insertionSort freqRel m else m

/-! ## The case-configurable variant (modelled from the spec)

The repository holds two near-duplicate program variants; only the
exact-case one is under `src/`.  The other variant — the one carrying
the `--case-sensitive` flag (default case-insensitive) and the padded
report rendering — is not in `src/`, so it is modelled here from the
specification's own words. -/

/-- Modelled from the spec: the missing variant's case-folding used by
the case-insensitive Count Key ("a case-folded wrapper around it ...
that compares and orders words ignoring case").  ASCII folding, which
covers every concrete example in the spec. -/
def foldWord (w : List Char) : List Char := w.map Char.toLower

/-- Modelled from the spec: a case-insensitive Count Key entry — the
folded key used for comparison and ordering, one representative
original spelling for display, and the accumulated count. -/
structure CIEntry where
  key : List Char
  display : List Char
  count : Nat
deriving DecidableEq, Repr

/-- Modelled from the spec: recording one word in the case-insensitive
counting table ("`Foo` and `foo` accumulate into one entry"), kept
sorted by folded key; the displayed spelling of an entry is the
first-seen spelling (the spec allows fixing either policy). -/
def ciRecord (w : List Char) : List CIEntry → List CIEntry
  | [] => [⟨foldWord w, w, 1⟩]
  | e :: rest =>
    match lexCmp (foldWord w) e.key with
    | .eq => ⟨e.key, e.display, e.count + 1⟩ :: rest
    | .lt => ⟨foldWord w, w, 1⟩ :: e :: rest
    | .gt => e :: ciRecord w rest

/-- Modelled from the spec: the case-insensitive counting table built
from a stream of recorded words. -/
def ciAggregate (ws : List (List Char)) : List CIEntry :=
  ws.foldl (fun m w => ciRecord w m) []

/-- The count stored under a folded key (`0` when absent). -/
def ciCountOf : List CIEntry → List Char → Nat
  | [], _ => 0
  | e :: rest, k => if k = e.key then e.count else ciCountOf rest k

/-- Strict sortedness by folded key. -/
def ciSorted (m : List CIEntry) : Prop :=
  m.Pairwise (fun a b => lexCmp a.key b.key = Ordering.lt)

theorem mem_ciRecord (w : List Char) (m : List CIEntry) {x : CIEntry}
    (hx : x ∈ ciRecord w m) : x.key = foldWord w ∨ x.key ∈ m.map CIEntry.key := by
  induction m with
  | nil => simp [ciRecord] at hx; simp [hx]
  | cons e rest ih =>
    rw [ciRecord] at hx
    rcases hkw : lexCmp (foldWord w) e.key with _ | _ | _ <;> rw [hkw] at hx
    · rcases List.mem_cons.mp hx with h | h
      · left; rw [h]
      · rcases List.mem_cons.mp h with h2 | h2
        · right; rw [h2]; simp
        · right; simp only [List.map_cons, List.mem_cons]; right
          exact List.mem_map.mpr ⟨x, h2, rfl⟩
    · rcases List.mem_cons.mp hx with h | h
      · right; rw [h]; simp
      · right; simp only [List.map_cons, List.mem_cons]; right
        exact List.mem_map.mpr ⟨x, h, rfl⟩
    · rcases List.mem_cons.mp hx with h | h
      · right; rw [h]; simp
      · rcases ih h with h2 | h2
        · left; exact h2
        · right; simp only [List.map_cons, List.mem_cons]; right; exact h2

theorem ciRecord_sorted {m : List CIEntry} (w : List Char)
    (hm : ciSorted m) : ciSorted (ciRecord w m) := by
  induction m with
  | nil => simp [ciRecord, ciSorted]
  | cons e rest ih =>
    simp only [ciSorted, List.pairwise_cons] at hm
    obtain ⟨hk, hrest⟩ := hm
    rw [ciRecord]
    rcases hkw : lexCmp (foldWord w) e.key with _ | _ | _
    · simp only [ciSorted, List.pairwise_cons]
      refine ⟨?_, ?_⟩
      · intro b hb
        rcases List.mem_cons.mp hb with h | h
        · rw [h]; exact hkw
        · exact lexCmp_lt_trans hkw (hk b h)
      · exact ⟨hk, hrest⟩
    · simp only [ciSorted, List.pairwise_cons]
      exact ⟨hk, hrest⟩
    · simp only [ciSorted, List.pairwise_cons]
      refine ⟨?_, ih hrest⟩
      intro b hb
      rcases mem_ciRecord w rest hb with h | h
      · rw [h]
        have hsw : lexCmp e.key (foldWord w) = (lexCmp (foldWord w) e.key).swap :=
          lexCmp_swap (foldWord w) e.key
        rw [hkw] at hsw
        exact hsw
      · obtain ⟨b1, hb1, hb2⟩ := List.mem_map.mp h
        have := hk b1 hb1
        rw [hb2] at this
        exact this

theorem ciCountOf_eq_zero {m : List CIEntry} {k : List Char}
    (h : ∀ e ∈ m, e.key ≠ k) : ciCountOf m k = 0 := by
  induction m with
  | nil => rfl
  | cons e rest ih =>
    rw [ciCountOf]
    have hne : k ≠ e.key := fun hk => (h e (by simp)) hk.symm
    rw [if_neg hne]
    exact ih fun e2 he2 => h e2 (by simp [he2])

theorem ciCountOf_record_self {m : List CIEntry} (w : List Char)
    (hm : ciSorted m) :
    ciCountOf (ciRecord w m) (foldWord w) = ciCountOf m (foldWord w) + 1 := by
  induction m with
  | nil => simp [ciRecord, ciCountOf]
  | cons e rest ih =>
    simp only [ciSorted, List.pairwise_cons] at hm
    obtain ⟨hk, hrest⟩ := hm
    rw [ciRecord]
    rcases hkw : lexCmp (foldWord w) e.key with _ | _ | _
    · have hne : foldWord w ≠ e.key := by
        intro hx; rw [hx, lexCmp_self] at hkw; cases hkw
      rw [ciCountOf, if_pos rfl]
      have hz : ciCountOf (e :: rest) (foldWord w) = 0 := by
        apply ciCountOf_eq_zero
        intro e2 he2
        rcases List.mem_cons.mp he2 with h | h
        · rw [h]; exact fun hx => hne hx.symm
        · intro hx
          have := hk e2 h
          rw [hx] at this
          have h2 := lexCmp_lt_trans hkw this
          rw [lexCmp_self] at h2; cases h2
      rw [hz]
    · have heq : foldWord w = e.key := (lexCmp_eq_iff _ _).mp hkw
      rw [ciCountOf, if_pos heq, ciCountOf, if_pos heq]
    · have hne : foldWord w ≠ e.key := by
        intro hx; rw [hx, lexCmp_self] at hkw; cases hkw
      rw [ciCountOf, if_neg hne, ciCountOf, if_neg hne]
      exact ih hrest

theorem ciCountOf_record_ne (m : List CIEntry) (w k : List Char)
    (hne : k ≠ foldWord w) : ciCountOf (ciRecord w m) k = ciCountOf m k := by
  induction m with
  | nil => simp [ciRecord, ciCountOf, if_neg hne]
  | cons e rest ih =>
    rw [ciRecord]
    rcases hkw : lexCmp (foldWord w) e.key with _ | _ | _
    · rw [ciCountOf, if_neg hne, ciCountOf]
    · have heq : foldWord w = e.key := (lexCmp_eq_iff _ _).mp hkw
      rw [ciCountOf, ciCountOf]
      by_cases hkk : k = e.key
      · rw [← heq] at hkk; exact absurd hkk hne
      · rw [if_neg hkk, if_neg hkk]
    · rw [ciCountOf, ciCountOf]
      by_cases hkk : k = e.key
      · rw [if_pos hkk, if_pos hkk]
      · rw [if_neg hkk, if_neg hkk]
        exact ih

theorem ciAggregate_count (ws : List (List Char)) (k : List Char) :
    ciCountOf (ciAggregate ws) k = ws.countP (fun x => decide (foldWord x = k)) := by
  have main : ∀ (ws : List (List Char)) (m : List CIEntry), ciSorted m →
      ciCountOf (ws.foldl (fun m w => ciRecord w m) m) k =
        ciCountOf m k + ws.countP (fun x => decide (foldWord x = k)) := by
    intro ws
    induction ws with
    | nil => intro m _; simp
    | cons w rest ih =>
      intro m hm
      rw [List.foldl_cons, List.countP_cons]
      rw [ih (ciRecord w m) (ciRecord_sorted w hm)]
      by_cases hwk : foldWord w = k
      · rw [← hwk, ciCountOf_record_self w hm]
        simp [hwk]
        omega
      · rw [ciCountOf_record_ne m w k (fun h => hwk h.symm)]
        simp [hwk]
  have := main ws [] (by simp [ciSorted])
  rw [ciAggregate, this]
  simp [ciCountOf]

/-- The spellings of the word-classified terms the scanner finds in a
buffer, in order. -/
def wordsOf (s : List Char) : List (List Char) :=
  (scanStr s).filterMap fun t =>
    match t with
    | Term.Letters l => some l
    | Term.Symbols _ => none

/-- Modelled from the spec: the configurable pipeline's counting run —
case-sensitive mode keys by exact spelling (the behaviour of the
variant under `src/`), the default case-insensitive mode keys by the
folded spelling and displays the representative spelling; rows are in
ascending Count Key order. -/
def runModelled (caseSensitive : Bool) (s : List Char) : List (List Char × Nat) :=
  if caseSensitive then buildTable (wordsOf s)
  else (ciAggregate (wordsOf s)).map fun e => (e.display, e.count)

/-! ## The padded reporter (modelled from the spec)

The rendering of the variant under `src/` prints `word: count` without
alignment; the aligned rendering described by the spec ("compute the
maximum display-word length across all distinct words once; print
`word` right-padded/aligned to that width, then `: `, then the count")
belongs to the variant absent from `src/` and is modelled here from the
spec's words. -/

/-- Modelled from the spec: a word padded on the left with spaces to
the target display width. -/
def padWord (width : Nat) (w : List Char) : List Char :=
  List.replicate (width - w.length) ' ' ++ w

/-- Modelled from the spec: the maximum display-word length across all
rows. -/
def maxWordLen (rows : List (List Char × Nat)) : Nat :=
  rows.foldl (fun acc r => max acc r.1.length) 0

/-- Modelled from the spec: one rendered output line — the padded word,
`: `, then the decimal count. -/
def renderRow (width : Nat) (r : List Char × Nat) : List Char :=
  padWord width r.1 ++ String.toList ": " ++ String.toList (Nat.repr r.2)

/-- Modelled from the spec: the rendered report, one line per row in
the given order. -/
def render (rows : List (List Char × Nat)) : List (List Char) :=
  rows.map (renderRow (maxWordLen rows))

theorem foldl_max_init_le (rows : List (List Char × Nat)) (acc : Nat) :
    acc ≤ rows.foldl (fun acc r => max acc r.1.length) acc := by
  induction rows generalizing acc with
  | nil => exact Nat.le_refl acc
  | cons r rest ih =>
    rw [List.foldl_cons]
    exact Nat.le_trans (Nat.le_max_left acc r.1.length) (ih _)

theorem mem_le_foldl_max (rows : List (List Char × Nat)) (acc : Nat)
    {r : List Char × Nat} (hr : r ∈ rows) :
    r.1.length ≤ rows.foldl (fun acc r => max acc r.1.length) acc := by
  induction rows generalizing acc with
  | nil => cases hr
  | cons r2 rest ih =>
    rw [List.foldl_cons]
    rcases List.mem_cons.mp hr with h | h
    · rw [h]
      exact Nat.le_trans (Nat.le_max_right acc r2.1.length) (foldl_max_init_le rest _)
    · exact ih _ h

theorem mem_le_maxWordLen {rows : List (List Char × Nat)}
    {r : List Char × Nat} (hr : r ∈ rows) : r.1.length ≤ maxWordLen rows :=
  mem_le_foldl_max rows 0 hr

/-! ## Remaining helper lemmas -/

theorem rustTrim_length_le (isWs : Char → Bool) (s : List Char) :
    (rustTrim isWs s).length ≤ s.length := by
  rw [rustTrim, List.length_reverse]
  have h1 : (s.dropWhile isWs).length ≤ s.length := (List.dropWhile_sublist _).length_le
  have h2 : ((s.dropWhile isWs).reverse.dropWhile isWs).length ≤
      (s.dropWhile isWs).reverse.length := (List.dropWhile_sublist _).length_le
  rw [List.length_reverse] at h2
  omega

theorem rustTrim_all_ws {isWs : Char → Bool} {s : List Char}
    (h : s.all isWs = true) : rustTrim isWs s = [] := by
  have h1 : s.dropWhile isWs = [] :=
    List.dropWhile_eq_nil_iff.mpr fun x hx => List.all_eq_true.mp h x hx
  rw [rustTrim, h1]
  rfl

theorem buildTable_keys_ne (ws : List (List Char)) :
    (buildTable ws).Pairwise (fun a b => a.1 ≠ b.1) := by
  refine List.Pairwise.imp ?_ (buildTable_invariant ws).1
  intro a b hlt heq
  rw [heq, lexCmp_self] at hlt
  cases hlt

theorem reportRows_freq_pairwise (ws : List (List Char)) :
    (reportRows true (buildTable ws)).Pairwise
      (fun a b => b.2 < a.2 ∨ (a.2 = b.2 ∧ lexCmp a.1 b.1 = Ordering.lt)) := by
  have hs : (reportRows true (buildTable ws)).Pairwise freqRel := by
    show (List.insertionSort freqRel (buildTable ws)).Pairwise freqRel
    exact List.sorted_insertionSort freqRel (buildTable ws)
  have hperm : (reportRows true (buildTable ws)).Perm (buildTable ws) := by
    show (List.insertionSort freqRel (buildTable ws)).Perm (buildTable ws)
    exact List.perm_insertionSort freqRel (buildTable ws)
  have hne : (reportRows true (buildTable ws)).Pairwise (fun a b => a.1 ≠ b.1) :=
    (hperm.pairwise_iff fun hxy h => hxy h.symm).mpr (buildTable_keys_ne ws)
  refine List.Pairwise.imp ?_ (hs.and hne)
  intro a b hab
  obtain ⟨hfr, hne2⟩ := hab
  rw [freqRel_iff] at hfr
  rcases hfr with h | ⟨h1, h2⟩
  · left; exact h
  · right
    refine ⟨h1, ?_⟩
    rcases hcc : lexCmp a.1 b.1 with _ | _ | _
    · rfl
    · exact absurd ((lexCmp_eq_iff _ _).mp hcc) hne2
    · exact absurd hcc h2

/-! ## The claims -/

/-- C1.  With no flags the (spec-modelled) configurable variant
aggregates case-insensitively: the buffer "cat dog Cat" yields exactly
the rows cat: 2 and dog: 1, while with the case-sensitive flag it
yields Cat: 1, cat: 1, dog: 1; and in general the count stored under a
folded Count Key is the number of recorded spellings equal to it up to
case. -/
theorem claim_C1 :
    runModelled false (String.toList "cat dog Cat") =
      [(String.toList "cat", 2), (String.toList "dog", 1)] ∧
    runModelled true (String.toList "cat dog Cat") =
      [(String.toList "Cat", 1), (String.toList "cat", 1), (String.toList "dog", 1)] ∧
    ∀ (ws : List (List Char)) (w : List Char),
      ciCountOf (ciAggregate ws) (foldWord w) =
        ws.countP (fun x => decide (foldWord x = foldWord w)) := by
  have hw : wordsOf (String.toList "cat dog Cat") =
      [String.toList "cat", String.toList "dog", String.toList "Cat"] := by
    simp +decide [wordsOf, scanStr, strBreakerTerms, rustTrim, strBreak]
  refine ⟨?_, ?_, fun ws w => ciAggregate_count ws (foldWord w)⟩
  · have hdef : runModelled false (String.toList "cat dog Cat") =
        (ciAggregate (wordsOf (String.toList "cat dog Cat"))).map
          (fun e => (e.display, e.count)) := rfl
    rw [hdef, hw]
    decide
  · have hdef : runModelled true (String.toList "cat dog Cat") =
        buildTable (wordsOf (String.toList "cat dog Cat")) := rfl
    rw [hdef, hw]
    decide

/-- C2 as frozen is false on the code: the scanner's constructor trims
the input, so for the input " a" the concatenation of the produced
spans is "a", not the original " a". -/
theorem claim_C2_counterexample :
    ¬ termsConcat (scanStr (String.toList " a")) = String.toList " a" := by
  simp +decide [scanStr, strBreakerTerms, rustTrim, strBreak, termsConcat]

/-- C2, amended: for every input text, concatenating the spans of all
produced Terms, in order, reproduces the whitespace-trimmed input text
exactly — no characters of the trimmed input are dropped or
reordered. -/
theorem claim_C2 (isAl isWs : Char → Bool) (s : List Char) :
    termsConcat (strBreakerTerms isAl isWs s) = rustTrim isWs s :=
  strBreak_concat isAl (rustTrim isWs s)

/-- C3.  The (spec-modelled) reporter renders one line per row, in the
given order, each line being the word right-aligned with spaces to the
maximum display-word width, followed by ": " and the decimal count. -/
theorem claim_C3 (rows : List (List Char × Nat)) :
    (render rows).length = rows.length ∧
    render rows = rows.map (renderRow (maxWordLen rows)) ∧
    ∀ r ∈ rows,
      renderRow (maxWordLen rows) r =
        padWord (maxWordLen rows) r.1 ++ String.toList ": " ++
          String.toList (Nat.repr r.2) ∧
      (padWord (maxWordLen rows) r.1).length = maxWordLen rows := by
  refine ⟨by simp [render], rfl, ?_⟩
  intro r hr
  refine ⟨rfl, ?_⟩
  rw [padWord, List.length_append, List.length_replicate]
  have := mem_le_maxWordLen hr
  omega

theorem claim_C3_witness :
    (padWord (maxWordLen [(String.toList "cat", 2), (String.toList "a", 1)])
        (String.toList "a")).length =
      maxWordLen [(String.toList "cat", 2), (String.toList "a", 1)] :=
  ((claim_C3 [(String.toList "cat", 2), (String.toList "a", 1)]).2.2
    (String.toList "a", 1) (by decide)).2

/-- C4.  By-frequency rows are ordered descending by count with ties
broken ascending by key — a strict deterministic order — and are a
permutation of the table; default rows are in ascending key order; and
the counts b: 2, a: 2, c: 1 yield the by-frequency row order a, b, c. -/
theorem claim_C4 :
    (∀ ws : List (List Char),
      (reportRows true (buildTable ws)).Pairwise
        (fun a b => b.2 < a.2 ∨ (a.2 = b.2 ∧ lexCmp a.1 b.1 = Ordering.lt)) ∧
      (reportRows true (buildTable ws)).Perm (buildTable ws)) ∧
    (∀ ws : List (List Char),
      (reportRows false (buildTable ws)).Pairwise
        (fun a b => lexCmp a.1 b.1 = Ordering.lt)) ∧
    reportRows true (buildTable [String.toList "b", String.toList "b",
        String.toList "a", String.toList "a", String.toList "c"]) =
      [(String.toList "a", 2), (String.toList "b", 2), (String.toList "c", 1)] := by
  refine ⟨fun ws => ⟨reportRows_freq_pairwise ws, ?_⟩, fun ws => ?_, by decide⟩
  · show (List.insertionSort freqRel (buildTable ws)).Perm (buildTable ws)
    exact List.perm_insertionSort freqRel (buildTable ws)
  · show (buildTable ws).Pairwise _
    exact (buildTable_invariant ws).1

/-- C5.  For every input, no produced Term is empty, no two adjacent
Terms share a classification, the output is finite with at most one
Term per input character (the scanner terminates), and empty input
yields the empty sequence. -/
theorem claim_C5 :
    (∀ (isAl isWs : Char → Bool) (s : List Char),
      (strBreakerTerms isAl isWs s).all (fun t => ! t.span.isEmpty) = true ∧
      alternates (strBreakerTerms isAl isWs s) = true ∧
      (strBreakerTerms isAl isWs s).length ≤ s.length) ∧
    (∀ isAl isWs : Char → Bool, strBreakerTerms isAl isWs [] = []) := by
  constructor
  · intro isAl isWs s
    refine ⟨strBreak_all_nonempty isAl _, strBreak_alternates isAl _, ?_⟩
    exact Nat.le_trans (strBreak_length_le isAl _) (rustTrim_length_le isWs s)
  · intro isAl isWs
    have h : rustTrim isWs ([] : List Char) = [] := rfl
    rw [strBreakerTerms, h]
    simp [strBreak]

/-- C6.  A character is word-like exactly when it is alphanumeric, an
underscore, or an apostrophe; every Term's span is homogeneous for its
classification and adjacent Terms alternate (so each run is maximal);
and the input "_abc.words();" produces exactly the four terms the
specification lists. -/
theorem claim_C6 :
    (∀ (isAl : Char → Bool) (c : Char),
      is_kinda_letter isAl c = (isAl c || c = '_' || c = apostrophe)) ∧
    (∀ (isAl isWs : Char → Bool) (s : List Char),
      (strBreakerTerms isAl isWs s).all (Term.wellClassified isAl) = true ∧
      alternates (strBreakerTerms isAl isWs s) = true) ∧
    scanStr (String.toList "_abc.words();") =
      [Term.Letters (String.toList "_abc"), Term.Symbols (String.toList "."),
       Term.Letters (String.toList "words"), Term.Symbols (String.toList "();")] := by
  refine ⟨fun isAl c => rfl,
    fun isAl isWs s => ⟨strBreak_all_wellClassified isAl _, strBreak_alternates isAl _⟩, ?_⟩
  simp +decide [scanStr, strBreakerTerms, rustTrim, strBreak]

/-- C7.  Interning is idempotent (interning the same spelling twice
returns the same identity and leaves the arena unchanged), injective
within one run (distinct spellings never share an identity), and a
cache hit returns the existing canonical instance without registering
any new allocation. -/
theorem claim_C7 :
    (∀ (st : List (List Char)) (s : List Char),
      intern ((intern st s).2) s = intern st s) ∧
    (∀ (st : List (List Char)) (s t : List Char), s ≠ t →
      (intern ((intern st s).2) t).1 ≠ (intern st s).1) ∧
    (∀ (st : List (List Char)) (s : List Char) (i : Nat),
      internFind st s = some i → intern st s = (i, st)) := by
  refine ⟨intern_twice, ?_, ?_⟩
  · intro st s t hne heq
    have h1 : ((intern st s).2)[(intern st s).1]? = some s := intern_get st s
    have h2 : ((intern ((intern st s).2) t).2)[(intern ((intern st s).2) t).1]? =
        some t := intern_get _ t
    have h3 : ((intern ((intern st s).2) t).2)[(intern st s).1]? = some s :=
      intern_preserves t h1
    rw [heq] at h2
    exact hne (Option.some.inj (h3.symm.trans h2))
  · intro st s i h
    rw [intern, h]

theorem claim_C7_witness :
    (intern ((intern [] (String.toList "cat")).2) (String.toList "dog")).1 ≠
      (intern [] (String.toList "cat")).1 :=
  claim_C7.2.1 [] (String.toList "cat") (String.toList "dog") (by decide)

/-- C8.  Recording a word bumps exactly that word's count by one
(inserting count 1 when absent) and leaves every other key's count
unchanged; every count in a built table is at least 1 and its keys are
pairwise distinct. -/
theorem claim_C8 :
    (∀ (m : List (List Char × Nat)) (w : List Char), tableSorted m →
      countOf (btreeInsert w m) w = countOf m w + 1 ∧
      ∀ k, k ≠ w → countOf (btreeInsert w m) k = countOf m k) ∧
    (∀ ws : List (List Char),
      (∀ e ∈ buildTable ws, 1 ≤ e.2) ∧
      (buildTable ws).Pairwise (fun a b => a.1 ≠ b.1)) :=
  ⟨fun m w hm => ⟨countOf_btreeInsert_self w hm,
      fun k hk => countOf_btreeInsert_ne m w k hk⟩,
    fun ws => ⟨(buildTable_invariant ws).2, buildTable_keys_ne ws⟩⟩

theorem claim_C8_witness :
    countOf (btreeInsert (String.toList "dog") [(String.toList "cat", 2)])
        (String.toList "dog") =
      countOf [(String.toList "cat", 2)] (String.toList "dog") + 1 :=
  (claim_C8.1 [(String.toList "cat", 2)] (String.toList "dog") (by decide)).1

/-- C9.  Only word-classified terms touch the interner or the counting
table: a term stream of symbols leaves the state unchanged, processing
any stream equals processing just its word terms, and the buffer
"!!! ... ;;;" produces the empty table. -/
theorem claim_C9 :
    (∀ (st : List (List Char)) (m : List (List Char × Nat)) (ts : List Term),
      ts.all (fun t => ! t.isLetters) = true → processTerms st m ts = (st, m)) ∧
    (∀ (st : List (List Char)) (m : List (List Char × Nat)) (ts : List Term),
      processTerms st m ts = processTerms st m (ts.filter Term.isLetters)) ∧
    processBuffer [] [] (String.toList "!!! ... ;;;") = ([], []) := by
  refine ⟨fun st m ts h => processTerms_all_symbols st m ts h, processTerms_filter, ?_⟩
  simp +decide [processBuffer, scanStr, strBreakerTerms, rustTrim, strBreak, processTerms]

theorem claim_C9_witness :
    processTerms [] [] [Term.Symbols (String.toList "!")] = ([], []) :=
  claim_C9.1 [] [] [Term.Symbols (String.toList "!")] (by decide)

/-- C10.  The scanner's constructor trims leading and trailing
whitespace: the concatenation of all produced spans equals the trimmed
input, and whitespace-only input yields the empty term sequence. -/
theorem claim_C10 :
    (∀ (isAl isWs : Char → Bool) (s : List Char),
      termsConcat (strBreakerTerms isAl isWs s) = rustTrim isWs s) ∧
    (∀ (isAl isWs : Char → Bool) (s : List Char), s.all isWs = true →
      strBreakerTerms isAl isWs s = []) := by
  constructor
  · intro isAl isWs s
    exact strBreak_concat isAl (rustTrim isWs s)
  · intro isAl isWs s h
    rw [strBreakerTerms, rustTrim_all_ws h]
    simp [strBreak]

theorem claim_C10_witness :
    strBreakerTerms asciiAlphanumeric asciiWhitespace (String.toList "  ") = [] :=
  claim_C10.2 asciiAlphanumeric asciiWhitespace (String.toList "  ") (by decide)

end Whist
